import Mathlib

/-!
Verification development for the psychsim slice: the prisoner's-dilemma
example world (`psychsim/examples/forward_planning_tom.py`), the
reward-model inference example (`psychsim/examples/multiagent_modeling.py`)
and the reward helpers (`psychsim/reward.py`).  The decision-tree data,
payoff constants, legality trees and reward trees below are translated
directly from the example sources.  The engine itself (World, Agent,
Planner, Distribution) is not part of this slice, so those operations are
modelled from the specification, as marked in each doc comment.
-/

namespace Psy

/-- Modelled from the spec (SymbolicTree, 4.1): a tagged-variant conditional
tree; a node is either a terminal payload or a branch on a test, with both
children present (trees are total). -/
inductive GTree (T L : Type) where
  | leaf (x : L)
  | branch (test : T) (onTrue onFalse : GTree T L)
deriving DecidableEq

/-- Modelled from the spec (4.1): deterministic single root-to-leaf
evaluation of a tree, given a truth assignment for the branch tests. -/
def GTree.evalWith {T L : Type} (sat : T → Bool) : GTree T L → L
  | .leaf x => x
  | .branch t a b => if sat t then a.evalWith sat else b.evalWith sat

/-- Modelled from the spec (7): the error taxonomy of the core that this
slice exercises. -/
inductive PsyError where
  | illegalAction
  | domain
  | beliefCollapse
deriving DecidableEq

/-! ## The prisoner's-dilemma world of forward_planning_tom.py -/

/-- Values of each agent's "decision" feature, from the example
(NOT_DECIDED, DEFECTED, COOPERATED). -/
inductive Dec where
  | notDecided
  | defected
  | cooperated
deriving DecidableEq, Fintype

/-- The two actions each agent registers with addAction in the example. -/
inductive Act where
  | defect
  | cooperate
deriving DecidableEq, Fintype

/-- The two agents of the example (Agent 1 and Agent 2). -/
inductive AgentId where
  | one
  | two
deriving DecidableEq, Fintype

/-- The other member of the two-agent world. -/
def otherOf : AgentId → AgentId
  | .one => .two
  | .two => .one

/-- StateVector of the example world: each agent's "decision" feature. -/
abbrev SV := AgentId → Dec

/-- Payoff constant SUCKER = -3 from the example (CD). -/
def SUCKER : ℚ := -3

/-- Payoff constant TEMPTATION = 0 from the example (DC). -/
def TEMPTATION : ℚ := 0

/-- Payoff constant MUTUAL_COOP = -1 from the example (CC). -/
def MUTUAL_COOP : ℚ := -1

/-- Payoff constant PUNISHMENT = -2 from the example (DD). -/
def PUNISHMENT : ℚ := -2

/-- Sentinel INVALID = -10000 from the example (not-yet-decided states). -/
def INVALID : ℚ := -10000

/-- Trees of the example branch on equalRow tests: feature key = value. -/
abbrev PDTest := AgentId × Dec

/-- Evaluation of an example tree against a StateVector: an equalRow test
holds when the named decision feature has the named value. -/
def evalTree {L : Type} (s : SV) (t : GTree PDTest L) : L :=
  t.evalWith (fun p => decide (s p.1 = p.2))

/-- Legality tree of "defect" from the source: if other's decision is
cooperated then (if my decision is defected then True else False) else
True. -/
def defectLegality (i : AgentId) : GTree PDTest Bool :=
  .branch (otherOf i, .cooperated)
    (.branch (i, .defected) (.leaf true) (.leaf false))
    (.leaf true)

/-- Legality tree of "cooperate" from the source: if other's decision is
defected then False else (if my decision is defected then False else
True). -/
def cooperateLegality (i : AgentId) : GTree PDTest Bool :=
  .branch (otherOf i, .defected)
    (.leaf false)
    (.branch (i, .defected) (.leaf false) (.leaf true))

/-- The legality tree the example registers for each action. -/
def legality (i : AgentId) : Act → GTree PDTest Bool
  | .defect => defectLegality i
  | .cooperate => cooperateLegality i

/-- Reward tree of get_reward_tree from the source: INVALID until both
have decided, then the payoff matrix. -/
def rewardTree (i : AgentId) : GTree PDTest ℚ :=
  .branch (i, .notDecided) (.leaf INVALID)
    (.branch (otherOf i, .notDecided) (.leaf INVALID)
      (.branch (i, .cooperated)
        (.branch (otherOf i, .cooperated) (.leaf MUTUAL_COOP) (.leaf SUCKER))
        (.branch (otherOf i, .cooperated) (.leaf TEMPTATION) (.leaf PUNISHMENT))))

/-- Decision-feature value written by each action's dynamics tree
(setToConstantMatrix in the source). -/
def decOf : Act → Dec
  | .defect => .defected
  | .cooperate => .cooperated

/-- Pointwise update of a StateVector at one key. -/
def updateSV (s : SV) (i : AgentId) (d : Dec) : SV :=
  fun j => if j = i then d else s j

/-- Projection of agent i's own action: its dynamics tree sets i's
decision feature (a pure copy, the input state is not mutated). -/
def applyMy (i : AgentId) (a : Act) (s : SV) : SV :=
  updateSV s i (decOf a)

/-- Joint projection of one simultaneous turn-order group step: both
agents' dynamics trees applied to the same pre-group state. -/
def applyJoint (i : AgentId) (a : Act) (b : Act) (s : SV) : SV :=
  updateSV (updateSV s i (decOf a)) (otherOf i) (decOf b)

/-- Reward of agent i at a state, by evaluating its reward tree. -/
def rewardAt (i : AgentId) (s : SV) : ℚ :=
  evalTree s (rewardTree i)

/-- Modelled from the spec (4.4 step 1): the actions whose legality tree
evaluates true at the state, in the order they were registered. -/
def legalActs (i : AgentId) (s : SV) : List Act :=
  [Act.defect, Act.cooperate].filter (fun a => evalTree s (legality i a))

/-- Initial state of the example: both decision features NOT_DECIDED. -/
def initState : SV := fun _ => .notDecided

/-! ## Planner, modelled from the spec (4.4) -/

/-- Maximum of a list of action values (only used on nonempty lists of
legal-action values). -/
def listMax : List ℚ → ℚ
  | [] => 0
  | [x] => x
  | x :: y :: r => max x (listMax (y :: r))

/-- Mean of a list of values: expectation of the uniform tie-break
Distribution of the example (TIEBREAK = random). -/
def avg (l : List ℚ) : ℚ := l.sum / (l.length : ℚ)

/-- Modelled from the spec (4.4 step 5, selection random of the example):
the maximizing actions of a valued action list; the decision is uniform
over this set. -/
def bestOf (l : List (Act × ℚ)) : List Act :=
  (l.filter (fun p => decide (p.2 = listMax (l.map Prod.snd)))).map Prod.fst

/-- Modelled from the spec (4.4 step 3): the horizon-0 value of an agent,
the best immediate reward over its legal actions, each evaluated at the
projection of the agent's own action. -/
def contValue (i : AgentId) (s : SV) : ℚ :=
  listMax ((legalActs i s).map (fun a => rewardAt i (applyMy i a s)))

/-- Modelled from the spec (4.4 step 4): the horizon-1 value of action a
when the belief-weighted resolution of the other agent's simultaneous
action assigns probability p to cooperate (the belief Distribution over
the other's candidate models enters decide only through this aggregated
action probability): reward at the joint continuation state plus the
agent's own horizon-0 continuation value there. -/
def qOne (p : ℚ) (i : AgentId) (s : SV) (a : Act) : ℚ :=
  p * (rewardAt i (applyJoint i a .cooperate s) + contValue i (applyJoint i a .cooperate s))
    + (1 - p) * (rewardAt i (applyJoint i a .defect s) + contValue i (applyJoint i a .defect s))

/-- Modelled from the spec (4.4): decide at horizon 1, with the other's
belief-induced cooperation probability p; IllegalActionError when no
action is legal, else the set of maximizing actions (the random selection
of the example picks uniformly among them). -/
def decideH1 (p : ℚ) (i : AgentId) (s : SV) : Except PsyError (List Act) :=
  if legalActs i s = [] then .error .illegalAction
  else .ok (bestOf ((legalActs i s).map (fun a => (a, qOne p i s a))))

/-- Option-valued traversal of a list: some of all results, or none as
soon as one element fails (explicit plumbing of the fuel-bounded planner
below). -/
def mapO {α β : Type} (f : α → Option β) : List α → Option (List β)
  | [] => some []
  | x :: r =>
    match f x, mapO f r with
    | some y, some ys => some (y :: ys)
    | _, _ => none

/-- Modelled from the spec (4.4 step 4, design note 9): the expectimax
action value of agent i at horizon h.  At horizon 0 the value is the
immediate reward of the agent's own projection (step 3); at horizon h+1
the other simultaneous agent's action is resolved by a nested decide at
horizon h (each recursive call reduces the horizon by one), the example's
random selection making it uniform over the other's maximizing actions;
the value is the reward at the joint continuation state plus the agent's
own best value at horizon h there. -/
def qvalF : Nat → AgentId → SV → Act → ℚ
  | 0, i, s, a => rewardAt i (applyMy i a s)
  | h + 1, i, s, a =>
    let j := otherOf i
    let oActs := legalActs j s
    let pred := bestOf (oActs.zip (oActs.map (fun b => qvalF h j s b)))
    avg (pred.map (fun b =>
      let s2 := applyJoint i a b s
      rewardAt i s2 + listMax ((legalActs i s2).map (fun a2 => qvalF h i s2 a2))))

/-- Modelled from the spec (4.4): the decide entry point at horizon h;
IllegalActionError when no action is legal, else the set of maximizing
actions (uniform tie-break). -/
def decidePD (h : Nat) (i : AgentId) (s : SV) : Except PsyError (List Act) :=
  if legalActs i s = [] then .error .illegalAction
  else .ok (bestOf ((legalActs i s).zip ((legalActs i s).map (fun a => qvalF h i s a))))

/-- Fuel-instrumented variant of qvalF: every nested planner call consumes
one unit of fuel, and the computation reports none when the recursion
budget is exhausted.  Used to state that the recursion depth of nested
decide calls is strictly bounded by the caller-supplied horizon. -/
def qvalFuel : Nat → Nat → AgentId → SV → Act → Option ℚ
  | 0, _, _, _, _ => none
  | _ + 1, 0, i, s, a => some (rewardAt i (applyMy i a s))
  | fuel + 1, h + 1, i, s, a =>
    let j := otherOf i
    let oActs := legalActs j s
    match mapO (fun b => qvalFuel fuel h j s b) oActs with
    | none => none
    | some qs =>
      let pred := bestOf (oActs.zip qs)
      match mapO (fun b =>
          match mapO (fun a2 => qvalFuel fuel h i (applyJoint i a b s) a2)
              (legalActs i (applyJoint i a b s)) with
          | none => none
          | some qs2 => some (rewardAt i (applyJoint i a b s) + listMax qs2)) pred with
      | none => none
      | some vals => some (avg vals)

/-- Fuel-instrumented decide: none when the recursion budget is exhausted
before the horizon is. -/
def decideFuel (fuel h : Nat) (i : AgentId) (s : SV) : Option (Except PsyError (List Act)) :=
  if legalActs i s = [] then some (.error .illegalAction)
  else
    match mapO (fun a => qvalFuel fuel h i s a) (legalActs i s) with
    | none => none
    | some qs => some (.ok (bestOf ((legalActs i s).zip qs)))

/-! ## Distribution, modelled from the spec (4.2) -/

/-- Modelled from the spec (Distribution): a discrete mass function over a
finite outcome set, as a list of outcome/mass pairs. -/
abbrev Dist (α : Type) := List (α × ℚ)

/-- Total mass of a Distribution. -/
def total {α : Type} (d : Dist α) : ℚ := (d.map Prod.snd).sum

/-- Mass a Distribution assigns to one outcome (summed over its entries
for that outcome). -/
def massOf {α : Type} [DecidableEq α] (d : Dist α) (x : α) : ℚ :=
  ((d.filter (fun p => decide (p.1 = x))).map Prod.snd).sum

/-- Modelled from the spec (4.2): the threshold below which a total mass
counts as approximately zero. -/
def normEps : ℚ := 1 / 1000000000

/-- Modelled from the spec (4.2): normalize rescales the masses to sum 1
and fails with DomainError if any mass is negative or the total mass is
approximately zero. -/
def normalize {α : Type} (d : Dist α) : Except PsyError (Dist α) :=
  if ∃ p ∈ d, p.2 < 0 then .error .domain
  else if |total d| < normEps then .error .domain
  else .ok (d.map (fun p => (p.1, p.2 / total d)))

/-- Modelled from the spec (4.2, 4.5): Bayesian update, posterior mass
proportional to prior mass times the likelihood of the outcome, fails with
BeliefCollapseError when the whole posterior mass vanishes (all candidate
likelihoods zero on the support). -/
def bayesUpdate {α : Type} (d : Dist α) (like : α → ℚ) : Except PsyError (Dist α) :=
  let post := d.map (fun p => (p.1, p.2 * like p.1))
  if total post = 0 then .error .beliefCollapse
  else .ok (post.map (fun p => (p.1, p.2 / total post)))

/-- Repeated BeliefUpdater revision with a fixed observation likelihood;
on failure the previous belief is kept (the belief is replaced wholesale
only on success). -/
def iterBelief {α : Type} (like : α → ℚ) (d0 : Dist α) : Nat → Dist α
  | 0 => d0
  | n + 1 =>
    match bayesUpdate (iterBelief like d0 n) like with
    | .ok d2 => d2
    | .error _ => iterBelief like d0 n

/-! ## World.step over a turn-order group, modelled from the spec (4.6) -/

/-- Modelled from the spec (Action): a legality tree and per-affected-key
dynamics trees, branching on equalRow tests. -/
structure GAction (K V : Type) where
  legality : GTree (K × V) Bool
  dynamics : List (K × GTree (K × V) V)

/-- Modelled from the spec (Agent): the ordered actions an agent owns. -/
structure GAgent (K V : Type) where
  actions : List (GAction K V)

/-- Evaluation of a generic tree against a generic StateVector, equalRow
tests comparing a key's value to a constant. -/
def evalSt {K V L : Type} [DecidableEq V] (s : K → V) (t : GTree (K × V) L) : L :=
  t.evalWith (fun p => decide (s p.1 = p.2))

/-- Modelled from the spec (4.4 steps 1 and 5): an agent's decision at a
state; IllegalActionError when no action's legality tree is true, else a
legal action (no implicit no-op is synthesized). -/
def decideG {K V : Type} [DecidableEq V] (s : K → V) (ag : GAgent K V) :
    Except PsyError (GAction K V) :=
  match ag.actions.filter (fun a => evalSt s a.legality) with
  | [] => .error .illegalAction
  | a :: _ => .ok a

/-- Pointwise update of a generic StateVector at one key. -/
def updateSt {K V : Type} [DecidableEq K] (s : K → V) (k : K) (v : V) : K → V :=
  fun k2 => if k2 = k then v else s k2

/-- Modelled from the spec (4.1): application of one action's dynamics,
each affected key's tree evaluated against the same pre-action state. -/
def applyAction {K V : Type} [DecidableEq K] [DecidableEq V] (s : K → V) (a : GAction K V) :
    K → V :=
  a.dynamics.foldl (fun s2 kt => updateSt s2 kt.1 (evalSt s kt.2)) s

/-- Except-valued traversal of a list: ok of all results, or the first
error. -/
def mapE {α β : Type} (f : α → Except PsyError β) : List α → Except PsyError (List β)
  | [] => .ok []
  | x :: r =>
    match f x with
    | .error e => .error e
    | .ok y =>
      match mapE f r with
      | .error e => .error e
      | .ok ys => .ok (y :: ys)

/-- Modelled from the spec (4.6): one turn-order group of World.step.
Every member decides against the same pre-group StateVector; only after
all decisions succeed are the dynamics applied in one batch, in the fixed
order of the group list; the step returns the new state and the record of
chosen actions.  A single failing member yields the error and no new
state. -/
def stepGroup {K V : Type} [DecidableEq K] [DecidableEq V] (s : K → V)
    (group : List (GAgent K V)) : Except PsyError ((K → V) × List (GAction K V)) :=
  match mapE (fun ag => decideG s ag) group with
  | .error e => .error e
  | .ok acts => .ok (acts.foldl applyAction s, acts)

/-! ## Softmax selection, modelled from the spec (4.4 step 5) -/

/-- Modelled from the spec (4.4 step 5): under the distribution selection
policy, the mass decide puts on a legal action, proportional to
exp(rationality times the action's value). -/
noncomputable def softmaxMass {α : Type} (r : ℝ) (value : α → ℝ) (legal : List α) (a : α) : ℝ :=
  Real.exp (r * value a) / ((legal.map (fun b => Real.exp (r * value b))).sum)

/-- Modelled from the spec (4.4 step 5): the Distribution over the legal
actions that decide returns under the distribution selection policy. -/
noncomputable def distributionSelect {α : Type} (r : ℝ) (value : α → ℝ) (legal : List α) :
    List (α × ℝ) :=
  legal.map (fun a => (a, softmaxMass r value legal a))

/-! ## The reward helpers of psychsim/reward.py -/

/-- Branch tests of the reward trees built in reward.py: equalRow,
trueRow and falseRow planes over a named feature key. -/
inductive RowTest where
  | equalRow (key : String) (value : ℚ)
  | trueRow (key : String)
  | falseRow (key : String)
deriving DecidableEq

/-- Reward slot key of an agent (rewardKey of psychsim.pwl). -/
def rewardKey (agent : String) : String := agent ++ "__reward"

/-- Terminal matrix that sets one key to a constant (setToConstantMatrix
of psychsim.pwl). -/
def setToConstantMatrix (key : String) (c : ℚ) : String × ℚ := (key, c)

/-- Trees built by the reward.py helpers: RowTest branches with
set-constant matrix leaves. -/
abbrev KeyedTree := GTree RowTest (String × ℚ)

/-- From reward.py: achieve_feature_value builds the tree that pays 1 when
the key equals the value and 0 otherwise. -/
def achieve_feature_value (key : String) (value : ℚ) (agent : String) : KeyedTree :=
  .branch (.equalRow key value)
    (.leaf (setToConstantMatrix (rewardKey agent) 1))
    (.leaf (setToConstantMatrix (rewardKey agent) 0))

/-- From reward.py: the camelCase wrapper delegating to
achieve_feature_value. -/
def achieveFeatureValue (key : String) (value : ℚ) (agent : String) : KeyedTree :=
  achieve_feature_value key value agent

/-- From reward.py: achieve_goal builds the tree that pays 1 when the key
is true (or, inverted, when it is false) and 0 otherwise. -/
def achieve_goal (key : String) (agent : String) (invert : Bool) : KeyedTree :=
  .branch (if invert then .falseRow key else .trueRow key)
    (.leaf (setToConstantMatrix (rewardKey agent) 1))
    (.leaf (setToConstantMatrix (rewardKey agent) 0))

/-- From reward.py: the camelCase wrapper delegating to achieve_goal. -/
def achieveGoal (key : String) (agent : String) (invert : Bool) : KeyedTree :=
  achieve_goal key agent invert

/-! ## Helper lemmas -/

theorem bestOf_pair (x y : Act) (qx qy : ℚ) (h : qy < qx) :
    bestOf [(x, qx), (y, qy)] = [x] := by
  have hmax : listMax [qx, qy] = qx := by
    simp [listMax, max_eq_left h.le]
  simp [bestOf, hmax, h.ne]

theorem massOf_cons {α : Type} [DecidableEq α] (p : α × ℚ) (d : Dist α) (x : α) :
    massOf (p :: d) x = (if p.1 = x then p.2 else 0) + massOf d x := by
  by_cases h : p.1 = x <;> simp [massOf, List.filter_cons, h]

theorem total_cons {α : Type} (p : α × ℚ) (d : Dist α) :
    total (p :: d) = p.2 + total d := by
  simp [total]

theorem total_nonneg {α : Type} (d : Dist α) (h : ∀ p ∈ d, 0 ≤ p.2) : 0 ≤ total d :=
  List.sum_nonneg (by
    intro x hx
    obtain ⟨p, hp, rfl⟩ := List.mem_map.mp hx
    exact h p hp)

theorem massOf_le_total {α : Type} [DecidableEq α] (d : Dist α) (x : α)
    (h : ∀ p ∈ d, 0 ≤ p.2) : massOf d x ≤ total d := by
  induction d with
  | nil => simp [massOf, total]
  | cons hd tl ih =>
    have h0 := h hd (List.mem_cons_self _ _)
    have ih2 := ih (fun p hp => h p (List.mem_cons_of_mem _ hp))
    rw [massOf_cons, total_cons]
    by_cases hx : hd.1 = x
    · rw [if_pos hx]; linarith
    · rw [if_neg hx]; linarith

theorem total_scale {α : Type} (d : Dist α) (c : ℚ) :
    total (d.map (fun p => (p.1, p.2 / c))) = total d / c := by
  induction d with
  | nil => simp [total]
  | cons hd tl ih =>
    rw [List.map_cons, total_cons, total_cons, ih]
    ring

theorem massOf_scale {α : Type} [DecidableEq α] (d : Dist α) (c : ℚ) (x : α) :
    massOf (d.map (fun p => (p.1, p.2 / c))) x = massOf d x / c := by
  induction d with
  | nil => simp [massOf]
  | cons hd tl ih =>
    rw [List.map_cons, massOf_cons, massOf_cons, ih]
    by_cases hx : hd.1 = x
    · rw [if_pos hx, if_pos hx]; ring
    · rw [if_neg hx, if_neg hx]; ring

theorem total_map_like {α : Type} [DecidableEq α] (d : Dist α) (like : α → ℚ) (m : α)
    (hone : ∀ o, o ≠ m → like o = 0) :
    total (d.map (fun p => (p.1, p.2 * like p.1))) = like m * massOf d m := by
  induction d with
  | nil => simp [total, massOf]
  | cons hd tl ih =>
    rw [List.map_cons, total_cons, massOf_cons, ih]
    by_cases h : hd.1 = m
    · rw [if_pos h, h]; ring
    · rw [if_neg h, hone hd.1 h]; ring

theorem massOf_map_like {α : Type} [DecidableEq α] (d : Dist α) (like : α → ℚ) (m : α) :
    massOf (d.map (fun p => (p.1, p.2 * like p.1))) m = like m * massOf d m := by
  induction d with
  | nil => simp [massOf]
  | cons hd tl ih =>
    rw [List.map_cons, massOf_cons, massOf_cons, ih]
    by_cases h : hd.1 = m
    · rw [if_pos h, if_pos h, h]; ring
    · rw [if_neg h, if_neg h]; ring

theorem bayes_step {α : Type} [DecidableEq α] (d : Dist α) (like : α → ℚ) (m : α)
    (hnn : ∀ p ∈ d, 0 ≤ p.2) (hlnn : ∀ o, 0 ≤ like o)
    (hm : 0 < like m) (hone : ∀ o, o ≠ m → like o = 0) (hmass : 0 < massOf d m) :
    ∃ d2, bayesUpdate d like = .ok d2 ∧
      massOf d2 m = 1 ∧ total d2 = 1 ∧ ∀ p ∈ d2, 0 ≤ p.2 := by
  have hT : total (d.map (fun p => (p.1, p.2 * like p.1))) = like m * massOf d m :=
    total_map_like d like m hone
  have hTpos : 0 < total (d.map (fun p => (p.1, p.2 * like p.1))) := by
    rw [hT]; exact mul_pos hm hmass
  refine ⟨(d.map (fun p => (p.1, p.2 * like p.1))).map
      (fun p => (p.1, p.2 / total (d.map (fun p => (p.1, p.2 * like p.1))))),
    ?_, ?_, ?_, ?_⟩
  · simp only [bayesUpdate]
    rw [if_neg hTpos.ne']
  · rw [massOf_scale, massOf_map_like, ← hT, div_self hTpos.ne']
  · rw [total_scale, div_self hTpos.ne']
  · intro p hp
    obtain ⟨q, hq, rfl⟩ := List.mem_map.mp hp
    obtain ⟨p0, hp0, rfl⟩ := List.mem_map.mp hq
    exact div_nonneg (mul_nonneg (hnn p0 hp0) (hlnn p0.1)) hTpos.le

theorem mapO_some {α β : Type} (f : α → Option β) (g : α → β) (l : List α)
    (h : ∀ x ∈ l, f x = some (g x)) : mapO f l = some (l.map g) := by
  induction l with
  | nil => rfl
  | cons hd tl ih =>
    have h1 := h hd (List.mem_cons_self _ _)
    have h2 := ih (fun x hx => h x (List.mem_cons_of_mem _ hx))
    rw [mapO, h1, h2, List.map_cons]

theorem mapE_ok_of_forall {α β : Type} (f : α → Except PsyError β) (l : List α)
    (h : ∀ x ∈ l, ∃ y, f x = .ok y) : ∃ ys, mapE f l = .ok ys := by
  induction l with
  | nil => exact ⟨[], rfl⟩
  | cons hd tl ih =>
    obtain ⟨y, hy⟩ := h hd (List.mem_cons_self _ _)
    obtain ⟨ys, hys⟩ := ih (fun x hx => h x (List.mem_cons_of_mem _ hx))
    exact ⟨y :: ys, by rw [mapE, hy, hys]⟩

theorem decideG_error_only {K V : Type} [DecidableEq V] (s : K → V) (ag : GAgent K V)
    (e : PsyError) (h : decideG s ag = .error e) : e = .illegalAction := by
  rw [decideG] at h
  cases hf : ag.actions.filter (fun a => evalSt s a.legality) with
  | nil => rw [hf] at h; cases h; rfl
  | cons hd tl => rw [hf] at h; cases h

theorem mapE_error_of_mem {α β : Type} (f : α → Except PsyError β) (l : List α) (x : α)
    (hx : x ∈ l) (hfx : f x = .error .illegalAction)
    (honly : ∀ y e, f y = .error e → e = .illegalAction) :
    mapE f l = .error .illegalAction := by
  induction l with
  | nil => cases hx
  | cons hd tl ih =>
    rcases List.mem_cons.mp hx with h1 | h1
    · subst h1; rw [mapE, hfx]
    · cases hd2 : f hd with
      | error e =>
        have he := honly hd e hd2
        subst he
        rw [mapE, hd2]
      | ok y => rw [mapE, hd2, ih h1]

theorem qOne_defect_val (p : ℚ) (i : AgentId) :
    qOne p i initState .defect = p * (0 + 0) + (1 - p) * (-2 + -2) := by
  cases i <;> rfl

theorem qOne_coop_val (p : ℚ) (i : AgentId) :
    qOne p i initState .cooperate = p * (-1 + -1) + (1 - p) * (-3 + -2) := by
  cases i <;> rfl

theorem legalActs_init (i : AgentId) :
    legalActs i initState = [Act.defect, Act.cooperate] := by
  cases i <;> rfl

/-! ## Claim theorems -/

/-- C1: in the prisoner's-dilemma world (TEMPTATION = 0, MUTUAL_COOP = -1,
PUNISHMENT = -2, SUCKER = -3), decide at horizon 1 returns exactly the
action defect for both agents, for every belief Distribution the agent
holds over the other's models: any such Distribution resolves the other's
simultaneous action into some cooperation probability p with 0 ≤ p ≤ 1,
and defect is the strict maximizer of the horizon-1 action value for every
such p (dominant strategy at the one-shot horizon). -/
theorem decideH1_defects (p : ℚ) (h0 : 0 ≤ p) (h1 : p ≤ 1) (i : AgentId) :
    decideH1 p i initState = .ok [Act.defect] := by
  have hgap : qOne p i initState .cooperate < qOne p i initState .defect := by
    rw [qOne_defect_val, qOne_coop_val]
    linarith
  rw [decideH1, legalActs_init]
  rw [if_neg (by simp)]
  rw [List.map_cons, List.map_cons, List.map_nil]
  rw [bestOf_pair _ _ _ _ hgap]

/-- Witness for C1 at belief probability one half, for the first agent. -/
theorem decideH1_defects_w :
    decideH1 (1 / 2) AgentId.one initState = .ok [Act.defect] :=
  decideH1_defects (1 / 2) (by norm_num) (by norm_num) AgentId.one

/-- C9: in the prisoner's-dilemma example world, for every assignment of
the two decision features, at least one action's legality tree is true;
defect is legal exactly unless the other agent has cooperated while the
agent itself has not defected, and in that remaining case cooperate is
legal; hence the legal-action set is never empty, so the
IllegalActionError branch of decide is unreachable in this world. -/
theorem pd_legal_total :
    ∀ (s : SV) (i : AgentId),
      legalActs i s ≠ [] ∧
      (evalTree s (legality i .defect) = true ↔
        ¬(s (otherOf i) = .cooperated ∧ ¬s i = .defected)) ∧
      (s (otherOf i) = .cooperated ∧ ¬s i = .defected →
        evalTree s (legality i .cooperate) = true) := by
  decide

/-- State for the C9 witness: the second agent has cooperated, the first
has not decided. -/
def coopState : SV := fun j => if j = AgentId.two then .cooperated else .notDecided

/-- Witness for C9: at coopState, cooperate is legal for the first agent. -/
theorem pd_legal_total_w :
    evalTree coopState (legality AgentId.one .cooperate) = true :=
  (pd_legal_total coopState AgentId.one).2.2 (by decide)

/-- C10: the camelCase wrappers of reward.py equal their snake_case
implementations on all arguments: achieveFeatureValue returns the same
tree as achieve_feature_value, and achieveGoal returns the same tree as
achieve_goal. -/
theorem camel_wrappers_eq (key : String) (value : ℚ) (agent : String) (invert : Bool) :
    achieveFeatureValue key value agent = achieve_feature_value key value agent ∧
    achieveGoal key agent invert = achieve_goal key agent invert :=
  ⟨rfl, rfl⟩

/-- C4: for every agent and state, decide fails with IllegalActionError
exactly when no action of the agent has a legality tree that is true at
the state; and when it succeeds it returns one of the agent's own legal
actions, so no implicit no-op action is ever synthesized in place of the
error. -/
theorem decideG_error_iff {K V : Type} [DecidableEq V] (s : K → V) (ag : GAgent K V) :
    (decideG s ag = .error .illegalAction ↔
      ag.actions.filter (fun a => evalSt s a.legality) = []) ∧
    (∀ a, decideG s ag = .ok a → a ∈ ag.actions ∧ evalSt s a.legality = true) := by
  constructor
  · constructor
    · intro h
      cases hf : ag.actions.filter (fun a => evalSt s a.legality) with
      | nil => rfl
      | cons hd tl =>
        rw [decideG, hf] at h
        cases h
    · intro h
      rw [decideG, h]
  · intro a h
    cases hf : ag.actions.filter (fun a2 => evalSt s a2.legality) with
    | nil =>
      rw [decideG, hf] at h
      cases h
    | cons hd tl =>
      rw [decideG, hf] at h
      have ha : a = hd := by
        cases h
        rfl
      subst ha
      have hmem : a ∈ ag.actions.filter (fun a2 => evalSt s a2.legality) := by
        rw [hf]
        exact List.mem_cons_self _ _
      have hsplit := List.mem_filter.mp hmem
      exact ⟨hsplit.1, hsplit.2⟩

/-- State over the trivial key space, for the C2 and C4 witnesses. -/
def stW : Unit → Bool := fun _ => false

/-- Agent with an empty action list, for the C4 witness. -/
def emptyAgent : GAgent Unit Bool := ⟨[]⟩

/-- Witness for C4: an agent with no legal action gets
IllegalActionError. -/
theorem decideG_error_iff_w :
    decideG stW emptyAgent = .error .illegalAction :=
  (decideG_error_iff stW emptyAgent).1.mpr rfl

/-- C2: World.step over a turn-order group is atomic: when every member's
decision succeeds, the step commits the batch of all members' dynamics
effects in the fixed group order; when any member fails with
IllegalActionError, the step returns that error and produces no new
StateVector at all, so the pre-group StateVector is left exactly as it
was. -/
theorem step_atomic {K V : Type} [DecidableEq K] [DecidableEq V] (s : K → V)
    (group : List (GAgent K V)) :
    ((∀ ag ∈ group, ∃ a, decideG s ag = .ok a) →
      ∃ acts, mapE (fun ag => decideG s ag) group = .ok acts ∧
        stepGroup s group = .ok (acts.foldl applyAction s, acts)) ∧
    ((∃ ag ∈ group, decideG s ag = .error .illegalAction) →
      stepGroup s group = .error .illegalAction) := by
  constructor
  · intro h
    obtain ⟨acts, hacts⟩ := mapE_ok_of_forall (fun ag => decideG s ag) group h
    exact ⟨acts, hacts, by rw [stepGroup, hacts]⟩
  · intro h
    obtain ⟨ag, hmem, herr⟩ := h
    have hmap : mapE (fun ag2 => decideG s ag2) group = .error .illegalAction :=
      mapE_error_of_mem _ group ag hmem herr (fun y e he => decideG_error_only s y e he)
    rw [stepGroup, hmap]

/-- Single always-legal action writing a constant, for the C2 witness. -/
def actW : GAction Unit Bool := ⟨.leaf true, [((), .leaf true)]⟩

/-- Agent owning the single always-legal action, for the C2 witness. -/
def agentW : GAgent Unit Bool := ⟨[actW]⟩

/-- Witness for C2: a one-member group with a legal action commits the
whole batch. -/
theorem step_atomic_w :
    ∃ acts, mapE (fun ag => decideG stW ag) [agentW] = .ok acts ∧
      stepGroup stW [agentW] = .ok (acts.foldl applyAction stW, acts) :=
  (step_atomic stW [agentW]).1 (by
    intro ag hag
    rw [List.mem_singleton] at hag
    subst hag
    exact ⟨actW, rfl⟩)

/-- C5: normalize fails with DomainError exactly when some outcome's mass
is negative or the total mass is approximately zero; when it succeeds, the
resulting masses sum to 1 (hence within the 1e-9 tolerance) and every
resulting mass is nonnegative. -/
theorem normalize_spec {α : Type} (d : Dist α) :
    (normalize d = .error .domain ↔ (∃ p ∈ d, p.2 < 0) ∨ |total d| < normEps) ∧
    (∀ d2, normalize d = .ok d2 →
      total d2 = 1 ∧ |total d2 - 1| ≤ normEps ∧ ∀ p ∈ d2, 0 ≤ p.2) := by
  unfold normalize
  split_ifs with hneg heps
  · constructor
    · exact ⟨fun _ => Or.inl hneg, fun _ => rfl⟩
    · intro d2 h
      cases h
  · constructor
    · exact ⟨fun _ => Or.inr heps, fun _ => rfl⟩
    · intro d2 h
      cases h
  · have hnn : ∀ p ∈ d, 0 ≤ p.2 := by
      intro p hp
      by_contra hc
      exact hneg ⟨p, hp, by linarith⟩
    have htpos : 0 < total d := by
      rcases lt_trichotomy (total d) 0 with h | h | h
      · exact absurd (total_nonneg d hnn) (not_le.mpr h)
      · exact absurd (by rw [h]; norm_num [normEps]) heps
      · exact h
    constructor
    · constructor
      · intro h
        cases h
      · intro h
        rcases h with h | h
        · exact absurd h hneg
        · exact absurd h heps
    · intro d2 h
      have hd2 : d2 = d.map (fun p => (p.1, p.2 / total d)) := by
        cases h
        rfl
      subst hd2
      refine ⟨?_, ?_, ?_⟩
      · rw [total_scale, div_self htpos.ne']
      · rw [total_scale, div_self htpos.ne']
        simp [normEps]
      · intro p hp
        obtain ⟨q, hq, rfl⟩ := List.mem_map.mp hp
        exact div_nonneg (hnn q hq) htpos.le

/-- C3: Bayesian belief revision from repeated identical observations
that are consistent with exactly one candidate model (that model's
likelihood is positive, every other candidate's likelihood is zero): the
consistent model's posterior mass is monotonically non-decreasing across
successive BeliefUpdater updates, and from the first update onward it
equals 1, so it approaches 1 in the limit. -/
theorem belief_mass_converges {α : Type} [DecidableEq α] (like : α → ℚ) (m : α)
    (prior : Dist α) (hnn : ∀ p ∈ prior, 0 ≤ p.2) (hlnn : ∀ o, 0 ≤ like o)
    (hm : 0 < like m) (hone : ∀ o, o ≠ m → like o = 0)
    (hmass : 0 < massOf prior m) (htot : total prior = 1) :
    (∀ n, massOf (iterBelief like prior n) m ≤ massOf (iterBelief like prior (n + 1)) m) ∧
    (∀ n, 1 ≤ n → massOf (iterBelief like prior n) m = 1) := by
  have key : ∀ n, 1 ≤ n → massOf (iterBelief like prior n) m = 1 ∧
      total (iterBelief like prior n) = 1 ∧ ∀ p ∈ iterBelief like prior n, 0 ≤ p.2 := by
    intro n hn
    induction n with
    | zero => omega
    | succ k ih =>
      rcases Nat.eq_zero_or_pos k with hk | hk
      · subst hk
        obtain ⟨d2, hup, h1, h2, h3⟩ := bayes_step prior like m hnn hlnn hm hone hmass
        simp only [iterBelief]
        rw [hup]
        exact ⟨h1, h2, h3⟩
      · obtain ⟨hm1, ht1, hn1⟩ := ih hk
        obtain ⟨d2, hup, h1, h2, h3⟩ :=
          bayes_step (iterBelief like prior k) like m hn1 hlnn hm hone
            (by rw [hm1]; norm_num)
        simp only [iterBelief]
        rw [hup]
        exact ⟨h1, h2, h3⟩
  refine ⟨?_, fun n hn => (key n hn).1⟩
  intro n
  cases n with
  | zero =>
    have h1 := (key 1 le_rfl).1
    have h2 := massOf_le_total prior m hnn
    simp only [iterBelief] at h1 ⊢
    rw [h1]
    rw [htot] at h2
    exact h2
  | succ k =>
    rw [(key (k + 1) (by omega)).1, (key (k + 2) (by omega)).1]

/-- Likelihood function for the C3 witness: the observation is consistent
only with the candidate model named true. -/
def likeW : Bool → ℚ := fun o => if o then 1 else 0

/-- Prior for the C3 witness: half mass on each of the two candidates. -/
def priorW : Dist Bool := [(true, 1 / 2), (false, 1 / 2)]

/-- Witness for C3: after one update from the uniform two-candidate prior,
the consistent candidate has posterior mass 1. -/
theorem belief_mass_converges_w :
    massOf (iterBelief likeW priorW 1) true = 1 :=
  (belief_mass_converges likeW true priorW
    (by
      intro p hp
      simp only [priorW, List.mem_cons, List.not_mem_nil, or_false] at hp
      rcases hp with h | h <;> (subst h; norm_num))
    (by intro o; cases o <;> norm_num [likeW])
    (by norm_num [likeW])
    (by
      intro o ho
      cases o with
      | false => norm_num [likeW]
      | true => exact absurd rfl ho)
    (by norm_num [massOf, priorW])
    (by norm_num [total, priorW])).2 1 le_rfl

/-- C6: under the distribution selection policy, decide returns the
Distribution over the legal actions in which each action's mass is
exp(rationality times its value) divided by the total such weight; for
every finite list of legal actions, every value function and every
rationality above 0, each legal action receives a strictly positive mass,
so the Distribution never collapses to a single action. -/
theorem distributionSelect_pos {α : Type} (r : ℝ) (value : α → ℝ) (legal : List α)
    (hr : 0 < r) (a : α) (ha : a ∈ legal) :
    (a, softmaxMass r value legal a) ∈ distributionSelect r value legal ∧
    softmaxMass r value legal a =
      Real.exp (r * value a) / ((legal.map (fun b => Real.exp (r * value b))).sum) ∧
    0 < softmaxMass r value legal a := by
  refine ⟨List.mem_map.mpr ⟨a, ha, rfl⟩, rfl, ?_⟩
  rw [softmaxMass]
  apply div_pos (Real.exp_pos _)
  apply List.sum_pos
  · intro x hx
    obtain ⟨b, _, rfl⟩ := List.mem_map.mp hx
    exact Real.exp_pos _
  · intro hnil
    rw [List.map_eq_nil_iff] at hnil
    exact List.ne_nil_of_mem ha hnil

/-- Witness for C6: with one legal action, rationality 1 and value 0, the
action's softmax mass is strictly positive. -/
theorem distributionSelect_pos_w :
    0 < softmaxMass 1 (fun _ => (0 : ℝ)) [(0 : Nat)] 0 :=
  (distributionSelect_pos 1 (fun _ => (0 : ℝ)) [(0 : Nat)] one_pos 0
    (List.mem_singleton.mpr rfl)).2.2

/-- Witness for C5: normalizing the one-point mass 2 yields mass 1. -/
theorem normalize_spec_w :
    total [((0 : Nat), (1 : ℚ))] = 1 ∧ |total [((0 : Nat), (1 : ℚ))] - 1| ≤ normEps ∧
      ∀ p ∈ [((0 : Nat), (1 : ℚ))], 0 ≤ p.2 :=
  (normalize_spec [((0 : Nat), (2 : ℚ))]).2 [((0 : Nat), (1 : ℚ))] (by
    norm_num [normalize, total, normEps])

theorem mapO_some_fn {α β : Type} (g : α → β) (l : List α) :
    mapO (fun x => some (g x)) l = some (l.map g) :=
  mapO_some _ g l (fun _ _ => rfl)

theorem qvalFuel_eq : ∀ (h fuel : Nat), h < fuel → ∀ (i : AgentId) (s : SV) (a : Act),
    qvalFuel fuel h i s a = some (qvalF h i s a) := by
  intro h
  induction h with
  | zero =>
    intro fuel hf i s a
    cases fuel with
    | zero => omega
    | succ f => rfl
  | succ h ih =>
    intro fuel hf i s a
    cases fuel with
    | zero => omega
    | succ f =>
      have hh : h < f := by omega
      simp only [qvalFuel, qvalF, ih f hh, mapO_some_fn]

/-- C7: for every agent, state and horizon h, the planner's recursion
terminates with nesting depth strictly bounded by the caller-supplied
horizon: each nested decide runs at horizon reduced by one, and the
fuel-instrumented planner given any recursion budget above h (h + 1 call
frames in total, so at most h nested frames below the root) never
exhausts it and computes exactly the total planner's decision. -/
theorem decide_depth_bounded (i : AgentId) (s : SV) (h fuel : Nat) (hf : h < fuel) :
    decideFuel fuel h i s = some (decidePD h i s) := by
  rw [decideFuel, decidePD]
  by_cases hleg : legalActs i s = []
  · rw [if_pos hleg, if_pos hleg]
  · rw [if_neg hleg, if_neg hleg,
      mapO_some (fun a => qvalFuel fuel h i s a) (fun a => qvalF h i s a) _
        (fun a _ => qvalFuel_eq h fuel hf i s a)]

/-- Witness for C7: fuel 2 suffices for the horizon-1 decision at the
initial state. -/
theorem decide_depth_bounded_w :
    decideFuel 2 1 AgentId.one initState = some (decidePD 1 AgentId.one initState) :=
  decide_depth_bounded AgentId.one initState 1 2 (by omega)

end Psy



